import Mathlib

/-!
Verification of the supertone custom_utils chunk-and-merge pipeline.

The definitions below are shallow embeddings of the Python functions in
src/supertone/custom_utils (text_utils.py, phoneme_utils.py, audio_utils.py):
strings become List Char, byte strings become List Nat (each element < 256),
Python floats become Rat (the algorithms perform only exact additions and
subtractions), and fallible code returns Except or Option.
-/

/-! ## Phoneme utilities (phoneme_utils.py)

A phoneme chunk dict with keys symbols, durations_seconds, start_times_seconds
is modelled as a structure with the three lists.  A missing key defaults to the
empty list in the Python code (dict.get), and an empty dict is skipped by the
loop; both behave exactly like the structure with three empty lists, so the
structure model is faithful for every value.
-/

structure PhonemeData where
  symbols : List String
  durations_seconds : List Rat
  start_times_seconds : List Rat
deriving DecidableEq, Repr

/-- Loop of merge_phoneme_data: state is the pending chunk list, the recorded
first_chunk_start_time (none until the first chunk with non-empty start times
is seen) and current_time_offset.  Mirrors phoneme_utils.py lines 42-78. -/
def merge_phoneme_go : List PhonemeData → Option Rat → Rat → PhonemeData
  | [], _, _ => ⟨[], [], []⟩
  | c :: cs, base?, off =>
    if c.start_times_seconds.isEmpty then
      -- no "start_times_seconds" contribution: symbols and durations are still
      -- extended, the offset is not advanced (the update sits inside the
      -- start-times branch in the source)
      let rest := merge_phoneme_go cs base? off
      ⟨c.symbols ++ rest.symbols, c.durations_seconds ++ rest.durations_seconds,
        rest.start_times_seconds⟩
    else
      let adjusted :=
        match base? with
        | none => c.start_times_seconds.map (fun t => t - c.start_times_seconds.headI)
        | some b => c.start_times_seconds.map (fun t => (t - b) + off)
      let b2 :=
        match base? with
        | none => c.start_times_seconds.headI
        | some b => b
      let off2 := if c.durations_seconds.isEmpty then off else off + c.durations_seconds.sum
      let rest := merge_phoneme_go cs (some b2) off2
      ⟨c.symbols ++ rest.symbols, c.durations_seconds ++ rest.durations_seconds,
        adjusted ++ rest.start_times_seconds⟩

/-- merge_phoneme_data (phoneme_utils.py lines 12-80). -/
def merge_phoneme_data (phoneme_chunks : List PhonemeData) : PhonemeData :=
  merge_phoneme_go phoneme_chunks none 0

/-- Chunks that contribute start times: those with non-empty start_times_seconds. -/
def contributingChunks (chunks : List PhonemeData) : List PhonemeData :=
  chunks.filter (fun c => !c.start_times_seconds.isEmpty)

/-- Modelled from the spec: the running offsets, one per contributing chunk,
each being the sum of the durations of all prior contributing chunks. -/
def specOffsets (chunks : List PhonemeData) : List Rat :=
  ((contributingChunks chunks).map (fun c => c.durations_seconds.sum)).scanl (· + ·) 0

/-- Modelled from the spec: the merged start-time list described by the spec,
first contributing chunk first start time as the baseline, each contributing
chunk shifted by the same baseline plus its running duration-sum offset. -/
def spec_merged_start_times (chunks : List PhonemeData) : List Rat :=
  match contributingChunks chunks with
  | [] => []
  | c0 :: _ =>
    (((contributingChunks chunks).zip (specOffsets chunks)).map
      (fun p => p.1.start_times_seconds.map
        (fun t => t - c0.start_times_seconds.headI + p.2))).flatten

/-- Chunk A of the phoneme-merge example in the spec. -/
def exChunkA : PhonemeData :=
  ⟨["a", "b", "c"], [0.2, 0.3, 0.4], [0.0, 0.2, 0.5]⟩

/-- Chunk B of the phoneme-merge example in the spec. -/
def exChunkB : PhonemeData :=
  ⟨["d", "e"], [0.3, 0.2], [10.0, 10.3]⟩

/-- The per-chunk PhonemeSequence invariant of the spec: parallel lengths,
non-negative durations, non-decreasing start times. -/
def chunk_valid (c : PhonemeData) : Prop :=
  c.symbols.length = c.durations_seconds.length ∧
  c.durations_seconds.length = c.start_times_seconds.length ∧
  (∀ d ∈ c.durations_seconds, 0 ≤ d) ∧
  List.Chain' (· ≤ ·) c.start_times_seconds

instance (c : PhonemeData) : Decidable (chunk_valid c) := by
  unfold chunk_valid; infer_instance

/-- A chunk whose start times span at most its total duration: the last start
time exceeds the first by no more than the sum of the durations.  This holds
for consistent phoneme timing, where each start time is the previous start
time plus the previous duration. -/
def chunk_span_ok (c : PhonemeData) : Prop :=
  c.start_times_seconds.getLastD 0 ≤
    c.start_times_seconds.headI + c.durations_seconds.sum

instance (c : PhonemeData) : Decidable (chunk_span_ok c) := by
  unfold chunk_span_ok; infer_instance

/-- The first start times of the contributing chunks, in order. -/
def firstStarts (chunks : List PhonemeData) : List Rat :=
  (contributingChunks chunks).map (fun c => c.start_times_seconds.headI)

/-- A chunk starting at an absolute time of 10 seconds. -/
def lateChunk : PhonemeData := ⟨["a"], [0.1], [10.0]⟩

/-- A chunk starting at an absolute time of 0 seconds. -/
def earlyChunk : PhonemeData := ⟨["b"], [0.1], [0.0]⟩

/-! ## Text utilities (text_utils.py)

Python strings are modelled as List Char.  The regular expression
([PUNCT]+\s*) used with re.split and one capture group partitions the string
into alternating non-match segments (possibly empty) and matches, where a
match is a maximal run of sentence punctuation followed by a maximal run of
whitespace; reSplitF implements that scan directly.  Functions that consume
the list a variable number of characters per step take a fuel argument that
is initialised with the length of the list, which is provably enough, so the
fuel-exhaustion fallbacks are unreachable; they are chosen so that the
concatenation of the output is always the input.
-/

/-- The SENTENCE_SPLIT_PUNCTUATION character class of text_utils.py; the
last entry is the Greek question mark U+037E. -/
def isSplitPunct (c : Char) : Bool :=
  c ∈ ['.', '!', '?', ';', ':', '…', '‥', '。', '！', '？', '、', '；', '：',
    '．', '｡', '؟', '؛', '۔', '،', '।', '॥', ';']

/-- ASCII whitespace as recognised by Python str.split, str.strip and the
regex class backslash-s (the non-ASCII Unicode whitespace code points are not
used anywhere in this development). -/
def isPySpace (c : Char) : Bool :=
  c = ' ' || c = '\t' || c = '\n' || c = '\r' || c = '\x0b' || c = '\x0c'

/-- Python str.strip: remove leading and trailing whitespace. -/
def pyStrip (l : List Char) : List Char :=
  ((l.dropWhile isPySpace).reverse.dropWhile isPySpace).reverse

/-- Scan of _SENTENCE_SPLIT_RE.split: at a punctuation character consume the
maximal punctuation run and then the maximal whitespace run as one match.
Fuel decreases every step; reSplit passes the list length, which suffices
because every step consumes at least one character. -/
def reSplitF : Nat → List Char → List (List Char)
  | _, [] => [[]]
  | 0, l => [l]
  | fuel + 1, c :: rest =>
    if isSplitPunct c then
      let p := (c :: rest).takeWhile isSplitPunct
      let r1 := (c :: rest).dropWhile isSplitPunct
      let sp := r1.takeWhile isPySpace
      let r2 := r1.dropWhile isPySpace
      [] :: (p ++ sp) :: reSplitF fuel r2
    else
      match reSplitF fuel rest with
      | s :: ss => (c :: s) :: ss
      | [] => [[c]]

/-- re.split of the sentence regex (with its capture group) on the text. -/
def reSplit (l : List Char) : List (List Char) :=
  reSplitF l.length l

/-- Python str.split with no separator: whitespace-delimited words, empties
dropped.  Fuel as in reSplitF. -/
def pySplitWordsF : Nat → List Char → List (List Char)
  | _, [] => []
  | 0, l => [l]
  | fuel + 1, c :: rest =>
    if isPySpace c then pySplitWordsF fuel rest
    else
      (c :: rest).takeWhile (fun x => !isPySpace x) ::
        pySplitWordsF fuel ((c :: rest).dropWhile (fun x => !isPySpace x))

/-- Python text.split() on whitespace. -/
def pySplitWords (l : List Char) : List (List Char) :=
  pySplitWordsF l.length l

/-- _split_by_characters (text_utils.py lines 84-102): fixed windows of
max_length characters.  The Python range call needs max_length at least 1;
every use in this development assumes that. -/
def splitByCharactersF : Nat → List Char → Nat → List (List Char)
  | _, [], _ => []
  | 0, l, _ => [l]
  | fuel + 1, l, maxLength => l.take maxLength :: splitByCharactersF fuel (l.drop maxLength) maxLength

/-- _split_by_characters. -/
def split_by_characters (text : List Char) (maxLength : Nat) : List (List Char) :=
  splitByCharactersF text.length text maxLength

/-- Word-accumulation loop of _split_by_words (text_utils.py lines 53-79).
State: pending words, finished chunks, current chunk. -/
def splitByWordsGo (maxLength : Nat) :
    List (List Char) → List (List Char) → List Char → List (List Char)
  | [], chunks, current => if current = [] then chunks else chunks ++ [current]
  | w :: ws, chunks, current =>
    let test := if current = [] then w else pyStrip (current ++ ' ' :: w)
    if test.length ≤ maxLength then splitByWordsGo maxLength ws chunks test
    else
      let chunks2 := if current = [] then chunks else chunks ++ [current]
      if maxLength < w.length then
        let wordChunks := split_by_characters w maxLength
        splitByWordsGo maxLength ws (chunks2 ++ wordChunks.dropLast)
          (wordChunks.getLastD [])
      else splitByWordsGo maxLength ws chunks2 w

/-- _split_by_words (text_utils.py lines 37-81). -/
def split_by_words (text : List Char) (maxLength : Nat) : List (List Char) :=
  let words := pySplitWords text
  if words = [] then split_by_characters text maxLength
  else splitByWordsGo maxLength words [] []

/-- _ensure_chunk_within_limit (text_utils.py lines 117-136);
_has_word_boundaries is the contains-space test inlined here. -/
def ensure_chunk_within_limit (chunk : List Char) (maxLength : Nat) : List (List Char) :=
  if chunk.length ≤ maxLength then [chunk]
  else if chunk.contains ' ' then split_by_words chunk maxLength
  else split_by_characters chunk maxLength

/-- Sentence-accumulation loop of chunk_text (text_utils.py lines 164-178).
State: pending sentence fragments, finished chunks, current chunk. -/
def accumulateGo (maxLength : Nat) :
    List (List Char) → List (List Char) → List Char → List (List Char)
  | [], chunks, current => if current = [] then chunks else chunks ++ [current]
  | s :: ss, chunks, current =>
    if s = [] then accumulateGo maxLength ss chunks current
    else if current.length + s.length ≤ maxLength then
      accumulateGo maxLength ss chunks (current ++ s)
    else if current = [] then accumulateGo maxLength ss chunks s
    else accumulateGo maxLength ss (chunks ++ [current]) s

/-- chunk_text (text_utils.py lines 139-190). -/
def chunk_text (text : List Char) (maxLength : Nat) : List (List Char) :=
  if text.length ≤ maxLength then [text]
  else
    let sentences := reSplit text
    let preliminary := accumulateGo maxLength sentences [] []
    preliminary.flatMap (fun c =>
      if c.length ≤ maxLength then [c] else ensure_chunk_within_limit c maxLength)

/-! ## Audio utilities (audio_utils.py)

Byte strings are List Nat with every element below 256.  struct.unpack of a
little-endian u16 or u32 needs a slice of exactly 2 or 4 bytes and raises
struct.error otherwise; struct.pack of a u16 or u32 raises when the value is
out of range.  Both are modelled with Except.
-/

/-- Python slice l[a:b] for 0 <= a <= b. -/
def pySlice (l : List Nat) (a b : Nat) : List Nat :=
  (l.drop a).take (b - a)

/-- struct.unpack of a little-endian unsigned 16-bit value: the argument must
be exactly 2 bytes. -/
def unpack16 : List Nat → Except String Nat
  | [b0, b1] => .ok (b0 + 256 * b1)
  | _ => .error "struct.error: unpack requires a buffer of 2 bytes"

/-- struct.unpack of a little-endian unsigned 32-bit value: the argument must
be exactly 4 bytes. -/
def unpack32 : List Nat → Except String Nat
  | [b0, b1, b2, b3] => .ok (b0 + 256 * b1 + 65536 * b2 + 16777216 * b3)
  | _ => .error "struct.error: unpack requires a buffer of 4 bytes"

/-- struct.pack of a little-endian unsigned 16-bit value. -/
def pack16 (n : Nat) : Except String (List Nat) :=
  if n < 65536 then .ok [n % 256, n / 256 % 256]
  else .error "struct.error: argument out of range"

/-- struct.pack of a little-endian unsigned 32-bit value. -/
def pack32 (n : Nat) : Except String (List Nat) :=
  if n < 4294967296 then .ok [n % 256, n / 256 % 256, n / 65536 % 256, n / 16777216 % 256]
  else .error "struct.error: argument out of range"

/-- Total little-endian encodings, for stating what the packs produce when in
range. -/
def pack16F (n : Nat) : List Nat := [n % 256, n / 256 % 256]

/-- Total 4-byte little-endian encoding. -/
def pack32F (n : Nat) : List Nat :=
  [n % 256, n / 256 % 256, n / 65536 % 256, n / 16777216 % 256]

/-- Little-endian u16 read at an index, 0 beyond the end. -/
def u16At (l : List Nat) (i : Nat) : Nat :=
  l.getD i 0 + 256 * l.getD (i + 1) 0

/-- Little-endian u32 read at an index, 0 beyond the end. -/
def u32At (l : List Nat) (i : Nat) : Nat :=
  l.getD i 0 + 256 * l.getD (i + 1) 0 + 65536 * l.getD (i + 2) 0 +
    16777216 * l.getD (i + 3) 0

/-- The five struct.unpack calls of merge_wav_binary (audio_utils.py lines
37-41) on the first 44 bytes: channels, sample rate, byte rate, block align,
bits per sample. -/
def parseWavParams (header : List Nat) : Except String (Nat × Nat × Nat × Nat × Nat) :=
  match unpack16 (pySlice header 22 24) with
  | .error e => .error e
  | .ok channels =>
    match unpack32 (pySlice header 24 28) with
    | .error e => .error e
    | .ok sampleRate =>
      match unpack32 (pySlice header 28 32) with
      | .error e => .error e
      | .ok byteRate =>
        match unpack16 (pySlice header 32 34) with
        | .error e => .error e
        | .ok blockAlign =>
          match unpack16 (pySlice header 34 36) with
          | .error e => .error e
          | .ok bits => .ok (channels, sampleRate, byteRate, blockAlign, bits)

/-- ASCII bytes of RIFF. -/
def riffMagic : List Nat := [82, 73, 70, 70]

/-- ASCII bytes of data. -/
def dataMagic : List Nat := [100, 97, 116, 97]

/-- The subchunk scan of merge_wav_binary (audio_utils.py lines 49-56):
starting at pos, while pos < len - 8, read the 4-byte id and u32 size; on
a data id return the size-bounded payload slice (Python slicing clamps at
the end of the buffer), otherwise jump over the subchunk.  Each iteration
advances pos by at least 8, and the loop runs only while pos < len - 8, so
len iterations of fuel are always enough for the initial pos of 36 on a
buffer of at least 44 bytes. -/
def findDataF : Nat → List Nat → Nat → Option (List Nat)
  | 0, _, _ => none
  | fuel + 1, l, pos =>
    if pos < l.length - 8 then
      let cid := pySlice l pos (pos + 4)
      let csize := u32At l (pos + 4)
      if cid = dataMagic then some (pySlice l (pos + 8) (pos + 8 + csize))
      else findDataF fuel l (pos + 8 + csize)
    else none

/-- The data-subchunk payload located by the scan from offset 36, if any. -/
def findDataPayload (l : List Nat) : Option (List Nat) :=
  findDataF l.length l 36

/-- Per-blob extraction step of merge_wav_binary (lines 45-58): blobs of at
least 44 bytes starting with RIFF contribute their located data payload (or
nothing when the scan finds none), all other blobs are appended verbatim. -/
def extractChunkPayload (l : List Nat) : List Nat :=
  if 44 ≤ l.length ∧ l.take 4 = riffMagic then (findDataPayload l).getD []
  else l

/-- merge_wav_binary (audio_utils.py lines 19-80). -/
def merge_wav_binary (audio_chunks : List (List Nat)) : Except String (List Nat) :=
  match audio_chunks with
  | [] => .ok []
  | c0 :: _ =>
    match parseWavParams (c0.take 44) with
    | .error e => .error e
    | .ok (channels, sampleRate, byteRate, blockAlign, bits) =>
      let allAudioData := (audio_chunks.map extractChunkPayload).flatten
      let totalLength := allAudioData.length
      let fileSize := totalLength + 36
      match pack32 fileSize with
      | .error e => .error e
      | .ok fileSizeB =>
        match pack16 channels with
        | .error e => .error e
        | .ok channelsB =>
          match pack32 sampleRate with
          | .error e => .error e
          | .ok sampleRateB =>
            match pack32 byteRate with
            | .error e => .error e
            | .ok byteRateB =>
              match pack16 blockAlign with
              | .error e => .error e
              | .ok blockAlignB =>
                match pack16 bits with
                | .error e => .error e
                | .ok bitsB =>
                  match pack32 totalLength with
                  | .error e => .error e
                  | .ok totalLengthB =>
                    .ok (riffMagic ++ fileSizeB ++ [87, 65, 86, 69] ++
                      [102, 109, 116, 32] ++ pack32F 16 ++ pack16F 1 ++
                      channelsB ++ sampleRateB ++ byteRateB ++ blockAlignB ++
                      bitsB ++ dataMagic ++ totalLengthB ++ allAudioData)

/-- Modelled from the spec: the fresh 44-byte canonical WAV header emitted by
the merge, with the format parameters and the total payload length. -/
def mkWavHeader (channels sampleRate byteRate blockAlign bits totalLength : Nat) :
    List Nat :=
  riffMagic ++ pack32F (totalLength + 36) ++ [87, 65, 86, 69] ++
    [102, 109, 116, 32] ++ pack32F 16 ++ pack16F 1 ++ pack16F channels ++
    pack32F sampleRate ++ pack32F byteRate ++ pack16F blockAlign ++
    pack16F bits ++ dataMagic ++ pack32F totalLength

/-- A blob is a well-formed mergeable WAV when it is a byte string, starts
with RIFF, spans the 44-byte canonical header, and the subchunk scan from
offset 36 reaches a data subchunk. -/
def wellFormedWav (l : List Nat) : Prop :=
  (∀ x ∈ l, x < 256) ∧ l.take 4 = riffMagic ∧ 44 ≤ l.length ∧
    (findDataPayload l).isSome

instance (l : List Nat) : Decidable (wellFormedWav l) := by
  unfold wellFormedWav; infer_instance

/-- A minimal valid 16 kHz mono 16-bit WAV blob carrying a 100-byte PCM
payload of sevens: 44-byte canonical header, then the payload. -/
def minimalWav : List Nat :=
  mkWavHeader 1 16000 32000 2 16 100 ++ List.replicate 100 7

/-- A 44-byte blob that starts with RIFF but has no data subchunk anywhere. -/
def noDataWav : List Nat :=
  riffMagic ++ pack32F 36 ++ [87, 65, 86, 69] ++ List.replicate 32 0

/-- Whether an Except value is a success (the Python call returned rather
than raised). -/
def exceptIsOk {e a : Type} : Except e a → Bool
  | .ok _ => true
  | .error _ => false

instance {e a : Type} [DecidableEq e] [DecidableEq a] : DecidableEq (Except e a)
  | .error x, .error y =>
    if h : x = y then isTrue (by rw [h]) else isFalse (by intro hh; cases hh; exact h rfl)
  | .ok x, .ok y =>
    if h : x = y then isTrue (by rw [h]) else isFalse (by intro hh; cases hh; exact h rfl)
  | .error _, .ok _ => isFalse (by intro h; cases h)
  | .ok _, .error _ => isFalse (by intro h; cases h)

/-! ## Response extraction (audio_utils.py lines 167-211)

The response.result object is modelled by its observable capabilities, and a
call is a state transition: reading a stream hands over all remaining bytes
and leaves the stream exhausted, which is exactly the behaviour the Python
capability probes rely on.
-/

/-- The result object seen by the sync extractor: either an object with a
read method (a stream holding its remaining bytes), an object with a content
attribute and no read method, or an already-buffered bytes value. -/
inductive SyncAudioSource where
  | stream (remaining : List Nat)
  | contentAttr (data : List Nat)
  | rawBytes (data : List Nat)
deriving DecidableEq, Repr

/-- extract_audio_from_response (audio_utils.py lines 199-211): probes read,
then content, then bytes().  Reading a stream consumes it; nothing is cached. -/
def extract_audio_from_response : SyncAudioSource → List Nat × SyncAudioSource
  | .stream remaining => (remaining, .stream [])
  | .contentAttr data => (data, .contentAttr data)
  | .rawBytes data => (data, .rawBytes data)

/-- The result object seen by the async extractor: an optional _content cache
(none models both a missing attribute and None), an optional async byte
iterator with its remaining chunks, an optional readable stream, and the
bytes() fallback value. -/
structure AsyncAudioSource where
  content : Option (List Nat)
  aiterChunks : Option (List (List Nat))
  readable : Option (List Nat)
  raw : List Nat
deriving DecidableEq, Repr

/-- extract_audio_from_response_async (audio_utils.py lines 167-196): return
the cached _content if set; otherwise drain aiter_bytes, cache and return the
joined chunks; otherwise fall back to read() (uncached) or bytes(). -/
def extract_audio_from_response_async (r : AsyncAudioSource) :
    List Nat × AsyncAudioSource :=
  match r.content with
  | some c => (c, r)
  | none =>
    match r.aiterChunks with
    | some chunks =>
      let d := chunks.flatten
      (d, { r with content := some d, aiterChunks := some [] })
    | none =>
      match r.readable with
      | some remaining => (remaining, { r with readable := some [] })
      | none => (r.raw, r)

/-! ## NDJSON extraction (text_utils.py lines 193-224)

json.loads and base64.b64decode are external collaborators; the extractor is
parameterised by them.  A parse outcome is abstracted to what the extractor
inspects: a decode failure, a container with the audio_base64 key (holding a
string or a non-string value), a container without the key, or a non-container
value on which the Python membership test itself raises TypeError.  Concrete
honest instances (a flat-object JSON reader and a base64 decoder) are provided
for evaluating the theorems on explicit inputs.
-/

/-- The audio_base64 value found in a parsed JSON container. -/
inductive PyJsonVal where
  | jstr (s : List Char)
  | other
deriving DecidableEq, Repr

/-- Outcome of json.loads as observed by extract_audio_from_ndjson. -/
inductive PyJsonResult where
  | parseError
  | audioKey (v : PyJsonVal)
  | noKey
  | notContainer
deriving DecidableEq, Repr

/-- Python str.split on a newline separator, keeping empty parts. -/
def splitLines : List Char → List (List Char)
  | [] => [[]]
  | c :: rest =>
    if c = '\n' then [] :: splitLines rest
    else
      match splitLines rest with
      | s :: ss => (c :: s) :: ss
      | [] => [[c]]

/-- One iteration of the NDJSON line loop (text_utils.py lines 215-222): a
blank line is skipped, a parsed line with a string audio_base64 value appends
its decoded bytes, and every failure (parse error, missing key, TypeError
from the membership test or from b64decode, binascii.Error) is caught by the
except clause and skips the line. -/
def ndjsonLineStep (loads : List Char → PyJsonResult)
    (b64decode : List Char → Option (List Nat)) (acc : List Nat)
    (line : List Char) : List Nat :=
  if pyStrip line ≠ [] then
    match loads line with
    | .audioKey (.jstr s) =>
      match b64decode s with
      | some bs => acc ++ bs
      | none => acc
    | _ => acc
  else acc

/-- extract_audio_from_ndjson (text_utils.py lines 193-224).  The fast path
parses the whole string; when it reaches a container holding the key, a
decode failure there is not caught (only JSONDecodeError is), and a
non-container value makes the membership test raise TypeError.  Otherwise the
stripped input is split on newlines and processed line by line. -/
def extract_audio_from_ndjson (loads : List Char → PyJsonResult)
    (b64decode : List Char → Option (List Nat)) (ndjsonStr : List Char) :
    Except String (List Nat) :=
  match loads ndjsonStr with
  | .audioKey (.jstr s) =>
    match b64decode s with
    | some bs => .ok bs
    | none => .error "binascii.Error: Invalid base64-encoded string"
  | .audioKey .other => .error "TypeError: argument should be a bytes-like object or ASCII string"
  | .notContainer => .error "TypeError: argument of type int is not iterable"
  | _ =>
    .ok ((splitLines (pyStrip ndjsonStr)).foldl (ndjsonLineStep loads b64decode) [])

/-- Modelled from the spec: the audio contribution of one NDJSON line, the
decoded audio_base64 payload of a well-formed non-blank line and nothing
otherwise. -/
def lineAudio (loads : List Char → PyJsonResult)
    (b64decode : List Char → Option (List Nat)) (line : List Char) : List Nat :=
  if pyStrip line ≠ [] then
    match loads line with
    | .audioKey (.jstr s) => (b64decode s).getD []
    | _ => []
  else []

/-! ### Concrete collaborator instances -/

/-- Six-bit value of a base64 alphabet character. -/
def b64Val (c : Char) : Option Nat :=
  if 'A' ≤ c ∧ c ≤ 'Z' then some (c.toNat - 65)
  else if 'a' ≤ c ∧ c ≤ 'z' then some (c.toNat - 97 + 26)
  else if '0' ≤ c ∧ c ≤ '9' then some (c.toNat - 48 + 52)
  else if c = '+' then some 62
  else if c = '/' then some 63
  else none

/-- Characters kept by base64.b64decode before decoding (validate=False
discards everything outside the alphabet and the padding character). -/
def b64Filter (l : List Char) : List Char :=
  l.filter (fun c => (b64Val c).isSome || c = '=')

/-- Decode filtered base64 text in groups of four; a length that is not a
multiple of four, or malformed padding, is binascii.Error (none).  Model
restricted to inputs without padding in the middle of the stream, which is
all this development evaluates.  Fuel decreases per group. -/
def b64Groups : Nat → List Char → Option (List Nat)
  | _, [] => some []
  | 0, _ => none
  | fuel + 1, c1 :: c2 :: c3 :: c4 :: rest =>
    (match b64Val c1, b64Val c2 with
    | some v1, some v2 =>
      if c3 = '=' then
        if c4 = '=' ∧ rest = [] then some [v1 * 4 + v2 / 16] else none
      else
        match b64Val c3 with
        | some v3 =>
          if c4 = '=' then
            if rest = [] then some [v1 * 4 + v2 / 16, v2 % 16 * 16 + v3 / 4] else none
          else
            match b64Val c4 with
            | some v4 =>
              (b64Groups fuel rest).map
                (fun bs => (v1 * 4 + v2 / 16) :: (v2 % 16 * 16 + v3 / 4) ::
                  ((v3 % 4 * 64 + v4) :: bs))
            | none => none
        | none => none
    | _, _ => none)
  | _, _ => none

/-- base64.b64decode on text input (validate=False), none on binascii.Error. -/
def pyB64decode (s : List Char) : Option (List Nat) :=
  b64Groups (b64Filter s).length (b64Filter s)

/-- The double-quote character. -/
def quoteChar : Char := Char.ofNat 34

/-- The opening curly-brace character. -/
def lbraceChar : Char := Char.ofNat 123

/-- The closing curly-brace character. -/
def rbraceChar : Char := Char.ofNat 125

/-- Drop leading JSON whitespace. -/
def skipWs (l : List Char) : List Char := l.dropWhile isPySpace

/-- An optionally negated run of decimal digits: a JSON value json.loads
returns as a Python int, on which a later membership test raises TypeError. -/
def isJsonIntLit (s : List Char) : Bool :=
  match s with
  | '-' :: ds => !ds.isEmpty && ds.all (fun c => c.isDigit)
  | _ => !s.isEmpty && s.all (fun c => c.isDigit)

/-- Value of one member of the modelled flat JSON objects. -/
inductive MiniJsonVal where
  | vstr (s : List Char)
  | vnum
deriving DecidableEq, Repr

/-- Parse a JSON string literal without escape sequences: contents up to the
closing quote, returning the remainder. -/
def parseJString (l : List Char) : Option (List Char × List Char) :=
  match l with
  | q :: rest =>
    if q = quoteChar then
      match rest.dropWhile (fun c => c ≠ quoteChar) with
      | _ :: rest2 => some (rest.takeWhile (fun c => c ≠ quoteChar), rest2)
      | [] => none
    else none
  | [] => none

/-- Parse a string or integer JSON value, returning the remainder. -/
def parseMiniVal (l : List Char) : Option (MiniJsonVal × List Char) :=
  match parseJString l with
  | some (s, rest) => some (.vstr s, rest)
  | none =>
    match l with
    | c :: _ =>
      if c.isDigit ∨ c = '-' then
        let ds := l.takeWhile (fun x => x.isDigit ∨ x = '-')
        if isJsonIntLit ds then some (.vnum, l.dropWhile (fun x => x.isDigit ∨ x = '-'))
        else none
      else none
    | [] => none

/-- Parse the members of a flat JSON object after the opening brace, up to
and including the closing brace, returning the assoc list and the remainder.
Each step consumes at least the key quotes, so length fuel suffices. -/
def parseMembersF : Nat → List Char → Option (List (List Char × MiniJsonVal) × List Char)
  | 0, _ => none
  | fuel + 1, l =>
    match parseJString (skipWs l) with
    | none => none
    | some (key, r1) =>
      match skipWs r1 with
      | ':' :: r3 =>
        match parseMiniVal (skipWs r3) with
        | none => none
        | some (v, r4) =>
          match skipWs r4 with
          | ',' :: r6 =>
            (parseMembersF fuel r6).map (fun p => ((key, v) :: p.1, p.2))
          | c :: r6 => if c = rbraceChar then some ([(key, v)], r6) else none
          | [] => none
      | _ => none

/-- Last binding of a key in an assoc list, as in a Python dict built from
repeated keys. -/
def lookupLast (key : List Char) (ms : List (List Char × MiniJsonVal)) :
    Option MiniJsonVal :=
  (ms.reverse.find? (fun p => p.1 = key)).map (fun p => p.2)

/-- Model of the json.loads collaborator on the fragment used in this
development: bare (possibly negated) integer literals and flat one-level
objects with string keys and string or integer values, no escape sequences.
Anything outside the fragment reports a parse error; every input actually
evaluated below stays inside the fragment and matches CPython behaviour. -/
def pyLoads (input : List Char) : PyJsonResult :=
  let s := pyStrip input
  if isJsonIntLit s then .notContainer
  else
    match s with
    | c :: rest =>
      if c = lbraceChar then
        match skipWs rest with
        | d :: r2 =>
          if d = rbraceChar then
            if skipWs r2 = [] then .noKey else .parseError
          else
            match parseMembersF rest.length rest with
            | some (ms, rem) =>
              if skipWs rem = [] then
                match lookupLast "audio_base64".toList ms with
                | some (.vstr v) => .audioKey (.jstr v)
                | some .vnum => .audioKey .other
                | none => .noKey
              else .parseError
            | none => .parseError
        | [] => .parseError
      else .parseError
    | [] => .parseError

/-- An NDJSON response with a well-formed first line (payload ABC), a
malformed middle line, and a well-formed last line (payload EFG). -/
def ndjsonExample : List Char :=
  ("\x7b\x22audio_base64\x22: \x22QUJD\x22\x7d\nbad line\n" ++
    "\x7b\x22audio_base64\x22: \x22RUZH\x22\x7d").toList

/-! ## Phoneme merge lemmas -/

/-- Once the baseline is fixed, the start times produced by the rest of the
merge loop are the contributing chunks mapped over the same baseline with
running duration-sum offsets starting at the current offset. -/
theorem merge_go_times_some (cs : List PhonemeData) : ∀ (b off : Rat),
    (merge_phoneme_go cs (some b) off).start_times_seconds =
      (((contributingChunks cs).zip
        (((contributingChunks cs).map (fun c => c.durations_seconds.sum)).scanl (· + ·) off)).map
        (fun p => p.1.start_times_seconds.map (fun t => t - b + p.2))).flatten := by
  induction cs with
  | nil => intro b off; simp [merge_phoneme_go, contributingChunks]
  | cons c cs ih =>
    intro b off
    by_cases h : c.start_times_seconds.isEmpty
    · simpa [merge_phoneme_go, h, contributingChunks] using ih b off
    · by_cases hd : c.durations_seconds = [] <;>
        simp [merge_phoneme_go, h, contributingChunks, hd, ih]

/-- Claim C8 (confirmed): the merged start times are exactly those described
by the spec: the first contributing chunk fixes the baseline, its start times
are the raw ones minus the baseline, and every later contributing chunk
yields its raw start times minus the same baseline plus the sum of the
durations of all prior contributing chunks. -/
theorem C8_merged_start_times (chunks : List PhonemeData) :
    (merge_phoneme_data chunks).start_times_seconds = spec_merged_start_times chunks := by
  unfold merge_phoneme_data spec_merged_start_times specOffsets
  induction chunks with
  | nil => simp [merge_phoneme_go, contributingChunks]
  | cons c cs ih =>
    by_cases h : c.start_times_seconds.isEmpty
    · simpa [merge_phoneme_go, h, contributingChunks] using ih
    · by_cases hd : c.durations_seconds = [] <;>
        simp [merge_phoneme_go, h, contributingChunks, hd, merge_go_times_some]

/-- The merge keeps the three sequences at equal lengths when every input
chunk has its three sequences at equal lengths. -/
theorem merge_go_lengths (cs : List PhonemeData) : ∀ (base? : Option Rat) (off : Rat),
    (∀ c ∈ cs, c.symbols.length = c.durations_seconds.length ∧
      c.durations_seconds.length = c.start_times_seconds.length) →
    (merge_phoneme_go cs base? off).symbols.length =
        (merge_phoneme_go cs base? off).durations_seconds.length ∧
      (merge_phoneme_go cs base? off).durations_seconds.length =
        (merge_phoneme_go cs base? off).start_times_seconds.length := by
  induction cs with
  | nil => intro base? off _; simp [merge_phoneme_go]
  | cons c cs ih =>
    intro base? off h
    obtain ⟨hc1, hc2⟩ := h c (List.mem_cons_self c cs)
    have ihtail := fun b o => ih b o (fun d hd => h d (List.mem_cons_of_mem c hd))
    by_cases hs : c.start_times_seconds.isEmpty
    · have : c.start_times_seconds = [] := List.isEmpty_iff.mp hs
      have hd : c.durations_seconds = [] :=
        List.eq_nil_of_length_eq_zero (by rw [hc2, this]; rfl)
      have hsym : c.symbols = [] :=
        List.eq_nil_of_length_eq_zero (by rw [hc1, hd]; rfl)
      simpa [merge_phoneme_go, hs, hsym, hd] using ihtail base? off
    · have ih1 := fun b o => (ihtail b o).1
      have ih2 := fun b o => (ihtail b o).2
      constructor
      · simp only [merge_phoneme_go, hs]
        cases base? <;> simp [List.length_append, hc1, ih1]
      · simp only [merge_phoneme_go, hs]
        cases base? <;> simp [List.length_append, hc2, ih2]

/-- Glue two non-decreasing runs when the head of the second run dominates
the last element of the first. -/
theorem chain_le_glue {l1 l2 : List Rat} {x : Rat}
    (h1 : List.Chain' (· ≤ ·) l1) (h2 : List.Chain' (· ≤ ·) (x :: l2))
    (hx : l1.getLast? = some x) : List.Chain' (· ≤ ·) (l1 ++ l2) := by
  refine List.chain'_append.mpr ⟨h1, (List.chain'_cons'.mp h2).2, ?_⟩
  intro a ha b hb
  rw [hx] at ha
  cases ha
  exact (List.chain'_cons'.mp h2).1 b hb

/-- The last entry of a mapped non-empty list. -/
theorem getLast?_map_ne_nil {f : Rat → Rat} : ∀ {l : List Rat}, l ≠ [] →
    (l.map f).getLast? = some (f (l.getLastD 0)) := by
  intro l
  induction l with
  | nil => intro h; exact absurd rfl h
  | cons a l ih =>
    intro _
    cases l with
    | nil => rfl
    | cons b l =>
      have hih := ih (by simp)
      simp only [List.map_cons] at hih ⊢
      rw [List.getLast?_cons_cons, List.getLastD_cons]
      exact hih

/-- The last entry of a non-empty list with anything consed in front. -/
theorem getLast?_cons_ne_nil {a : Rat} : ∀ {l : List Rat}, l ≠ [] →
    (a :: l).getLast? = l.getLast? := by
  intro l h
  cases l with
  | nil => exact absurd rfl h
  | cons b l => rw [List.getLast?_cons_cons]

/-- Start times of the merge tail, prefixed with a lower bound, form a
non-decreasing run: the induction for the output invariant.  The lower bound
hypothesis asks that every contributing chunk of the tail start, after
re-basing, no earlier than the bound. -/
theorem merge_go_chain (cs : List PhonemeData) : ∀ (b off lb : Rat),
    (∀ c ∈ cs, chunk_valid c) →
    (∀ c ∈ cs, chunk_span_ok c) →
    List.Pairwise (· ≤ ·)
      ((contributingChunks cs).map (fun c => c.start_times_seconds.headI)) →
    (∀ c ∈ cs, c.start_times_seconds.isEmpty = false →
      lb ≤ c.start_times_seconds.headI - b + off) →
    List.Chain' (· ≤ ·) (lb :: (merge_phoneme_go cs (some b) off).start_times_seconds) := by
  induction cs with
  | nil => intro b off lb _ _ _ _; simp [merge_phoneme_go]
  | cons c cs ih =>
    intro b off lb h1 h2 h3 h4
    by_cases hs : c.start_times_seconds.isEmpty
    · have h3' : List.Pairwise (· ≤ ·)
          ((contributingChunks cs).map (fun c => c.start_times_seconds.headI)) := by
        simpa [contributingChunks, hs] using h3
      simpa [merge_phoneme_go, hs] using
        ih b off lb (fun d hd => h1 d (List.mem_cons_of_mem c hd))
          (fun d hd => h2 d (List.mem_cons_of_mem c hd)) h3'
          (fun d hd hde => h4 d (List.mem_cons_of_mem c hd) hde)
    · have hsf : c.start_times_seconds.isEmpty = false := by simpa using hs
      have hne : c.start_times_seconds ≠ [] := by
        intro hnil
        rw [hnil] at hsf
        exact absurd hsf (by simp)
      obtain ⟨t0, ts', hts⟩ := List.exists_cons_of_ne_nil hne
      -- the adjusted segment of this chunk
      have hmono : List.Chain' (· ≤ ·)
          (c.start_times_seconds.map (fun t => t - b + off)) := by
        have := (h1 c (List.mem_cons_self c cs)).2.2.2
        exact List.chain'_map_of_chain' _ (fun x y hxy =>
          add_le_add_right (sub_le_sub_right hxy b) off) this
      have hlast : c.start_times_seconds.getLastD 0 ≤
          c.start_times_seconds.headI + c.durations_seconds.sum :=
        h2 c (List.mem_cons_self c cs)
      have hheadle : ∀ d ∈ cs, d.start_times_seconds.isEmpty = false →
          c.start_times_seconds.headI ≤ d.start_times_seconds.headI := by
        intro d hd hde
        have : d.start_times_seconds.headI ∈
            (contributingChunks cs).map (fun c => c.start_times_seconds.headI) := by
          refine List.mem_map_of_mem _ ?_
          simp [contributingChunks, List.mem_filter, hd, hde]
        have hp := h3
        rw [show contributingChunks (c :: cs) = c :: contributingChunks cs from by
          simp [contributingChunks, hs], List.map_cons, List.pairwise_cons] at hp
        exact hp.1 _ this
      -- the tail of the merge with the advanced offset
      have hoff2 : (if c.durations_seconds = [] then off
          else off + c.durations_seconds.sum) = off + c.durations_seconds.sum := by
        by_cases hde : c.durations_seconds = [] <;> simp [hde]
      have htail := ih b (off + c.durations_seconds.sum)
        (c.start_times_seconds.getLastD 0 - b + off)
        (fun d hd => h1 d (List.mem_cons_of_mem c hd))
        (fun d hd => h2 d (List.mem_cons_of_mem c hd))
        (by
          have hp := h3
          rw [show contributingChunks (c :: cs) = c :: contributingChunks cs from by
            simp [contributingChunks, hs], List.map_cons, List.pairwise_cons] at hp
          exact hp.2)
        (by
          intro d hd hde
          have hle := hheadle d hd hde
          have : c.start_times_seconds.getLastD 0 ≤
              d.start_times_seconds.headI + c.durations_seconds.sum := by
            calc c.start_times_seconds.getLastD 0
                ≤ c.start_times_seconds.headI + c.durations_seconds.sum := hlast
              _ ≤ d.start_times_seconds.headI + c.durations_seconds.sum := by
                  exact add_le_add_right hle _
          linarith)
      -- assemble lb :: (segment ++ tail)
      have hsegne : c.start_times_seconds.map (fun t => t - b + off) ≠ [] := by
        rw [hts]; simp
      have hgl : (lb :: c.start_times_seconds.map (fun t => t - b + off)).getLast?
          = some (c.start_times_seconds.getLastD 0 - b + off) := by
        rw [getLast?_cons_ne_nil hsegne]
        exact getLast?_map_ne_nil (by rw [hts]; simp)
      have hheadseg : lb ≤ c.start_times_seconds.headI - b + off :=
        h4 c (List.mem_cons_self c cs) hsf
      have hchainseg : List.Chain' (· ≤ ·)
          (lb :: c.start_times_seconds.map (fun t => t - b + off)) := by
        refine List.chain'_cons'.mpr ⟨?_, hmono⟩
        intro y hy
        rw [hts] at hy
        simp only [List.map_cons, List.head?_cons, Option.mem_def, Option.some.injEq] at hy
        subst hy
        have hh : c.start_times_seconds.headI = t0 := by rw [hts]; rfl
        rw [← hh]
        exact hheadseg
      have : List.Chain' (· ≤ ·)
          ((lb :: c.start_times_seconds.map (fun t => t - b + off)) ++
            (merge_phoneme_go cs (some b)
              (off + c.durations_seconds.sum)).start_times_seconds) :=
        chain_le_glue hchainseg htail hgl
      simpa [merge_phoneme_go, hs, hoff2] using this

/-- The start times of the whole merge form a non-decreasing run, under the
per-chunk invariant plus the span and ordered-first-start conditions. -/
theorem merge_go_chain_none (cs : List PhonemeData)
    (h1 : ∀ c ∈ cs, chunk_valid c)
    (h2 : ∀ c ∈ cs, chunk_span_ok c)
    (h3 : List.Pairwise (· ≤ ·)
      ((contributingChunks cs).map (fun c => c.start_times_seconds.headI))) :
    List.Chain' (· ≤ ·) (merge_phoneme_go cs none 0).start_times_seconds := by
  induction cs with
  | nil => simp [merge_phoneme_go]
  | cons c cs ih =>
    by_cases hs : c.start_times_seconds.isEmpty
    · have h3' : List.Pairwise (· ≤ ·)
          ((contributingChunks cs).map (fun c => c.start_times_seconds.headI)) := by
        simpa [contributingChunks, hs] using h3
      simpa [merge_phoneme_go, hs] using
        ih (fun d hd => h1 d (List.mem_cons_of_mem c hd))
          (fun d hd => h2 d (List.mem_cons_of_mem c hd)) h3'
    · have hsf : c.start_times_seconds.isEmpty = false := by simpa using hs
      have hne : c.start_times_seconds ≠ [] := by
        intro hnil
        rw [hnil] at hsf
        exact absurd hsf (by simp)
      have hmono : List.Chain' (· ≤ ·)
          (c.start_times_seconds.map (fun t => t - c.start_times_seconds.headI)) := by
        have := (h1 c (List.mem_cons_self c cs)).2.2.2
        exact List.chain'_map_of_chain' _ (fun x y hxy =>
          sub_le_sub_right hxy _) this
      have hlast : c.start_times_seconds.getLastD 0 ≤
          c.start_times_seconds.headI + c.durations_seconds.sum :=
        h2 c (List.mem_cons_self c cs)
      have hpair := h3
      rw [show contributingChunks (c :: cs) = c :: contributingChunks cs from by
        simp [contributingChunks, hs], List.map_cons, List.pairwise_cons] at hpair
      have htail := merge_go_chain cs c.start_times_seconds.headI
        c.durations_seconds.sum
        (c.start_times_seconds.getLastD 0 - c.start_times_seconds.headI)
        (fun d hd => h1 d (List.mem_cons_of_mem c hd))
        (fun d hd => h2 d (List.mem_cons_of_mem c hd))
        hpair.2
        (by
          intro d hd hde
          have hle : c.start_times_seconds.headI ≤ d.start_times_seconds.headI := by
            refine hpair.1 _ (List.mem_map_of_mem _ ?_)
            simp [contributingChunks, List.mem_filter, hd, hde]
          have : c.start_times_seconds.getLastD 0 ≤
              d.start_times_seconds.headI + c.durations_seconds.sum := by
            calc c.start_times_seconds.getLastD 0
                ≤ c.start_times_seconds.headI + c.durations_seconds.sum := hlast
              _ ≤ d.start_times_seconds.headI + c.durations_seconds.sum :=
                  add_le_add_right hle _
          linarith)
      have hgl : (c.start_times_seconds.map
            (fun t => t - c.start_times_seconds.headI)).getLast?
          = some (c.start_times_seconds.getLastD 0 - c.start_times_seconds.headI) :=
        getLast?_map_ne_nil hne
      have hoff2 : (if c.durations_seconds = [] then (0 : Rat)
          else c.durations_seconds.sum) = c.durations_seconds.sum := by
        by_cases hde : c.durations_seconds = [] <;> simp [hde]
      have hglue : List.Chain' (· ≤ ·)
          ((c.start_times_seconds.map (fun t => t - c.start_times_seconds.headI)) ++
            (merge_phoneme_go cs (some c.start_times_seconds.headI)
              c.durations_seconds.sum).start_times_seconds) :=
        chain_le_glue hmono htail hgl
      simpa [merge_phoneme_go, hs, hoff2] using hglue

/-- Claim C7 counterexample: two chunks that each satisfy the per-chunk
PhonemeSequence invariant but whose merge has decreasing start times, because
the second chunk's absolute start lies before the first chunk's baseline: the
merged start times are 0 followed by minus 9.9. -/
theorem C7_output_invariant_cex :
    chunk_valid lateChunk ∧ chunk_valid earlyChunk ∧
    ¬ List.Chain' (· ≤ ·)
      (merge_phoneme_data [lateChunk, earlyChunk]).start_times_seconds := by
  refine ⟨?_, ?_, ?_⟩
  · constructor <;> norm_num [lateChunk]
  · constructor <;> norm_num [earlyChunk]
  · simp [merge_phoneme_data, merge_phoneme_go, lateChunk, earlyChunk]
    norm_num

/-- Claim C7 (amended): when every chunk satisfies the PhonemeSequence
invariant, the merged sequences have equal lengths; and the merged start
times are non-decreasing provided additionally each chunk's start-time span
does not exceed its total duration and the contributing chunks' first start
times are non-decreasing across the list (the counterexample shows the
per-chunk invariant alone does not give monotonicity). -/
theorem C7_output_invariant (chunks : List PhonemeData)
    (h1 : ∀ c ∈ chunks, chunk_valid c)
    (h2 : ∀ c ∈ chunks, chunk_span_ok c)
    (h3 : List.Pairwise (· ≤ ·) (firstStarts chunks)) :
    ((merge_phoneme_data chunks).symbols.length =
        (merge_phoneme_data chunks).durations_seconds.length ∧
      (merge_phoneme_data chunks).durations_seconds.length =
        (merge_phoneme_data chunks).start_times_seconds.length) ∧
    List.Chain' (· ≤ ·) (merge_phoneme_data chunks).start_times_seconds := by
  constructor
  · exact merge_go_lengths chunks none 0
      (fun c hc => ⟨(h1 c hc).1, (h1 c hc).2.1⟩)
  · exact merge_go_chain_none chunks h1 h2 (by simpa [firstStarts] using h3)

/-- Claim C7 witness: the amended theorem applied to the two spec example
chunks. -/
theorem C7_output_invariant_witness :
    (∀ c ∈ [exChunkA, exChunkB], chunk_valid c) ∧
    (∀ c ∈ [exChunkA, exChunkB], chunk_span_ok c) ∧
    List.Pairwise (· ≤ ·) (firstStarts [exChunkA, exChunkB]) ∧
    (((merge_phoneme_data [exChunkA, exChunkB]).symbols.length =
        (merge_phoneme_data [exChunkA, exChunkB]).durations_seconds.length ∧
      (merge_phoneme_data [exChunkA, exChunkB]).durations_seconds.length =
        (merge_phoneme_data [exChunkA, exChunkB]).start_times_seconds.length) ∧
    List.Chain' (· ≤ ·) (merge_phoneme_data [exChunkA, exChunkB]).start_times_seconds) := by
  have hv : ∀ c ∈ [exChunkA, exChunkB], chunk_valid c := by
    intro c hc
    rcases List.mem_cons.mp hc with rfl | hc2
    · constructor <;> norm_num [exChunkA]
    · rcases List.mem_cons.mp hc2 with rfl | hc3
      · constructor <;> norm_num [exChunkB]
      · cases hc3
  have hsp : ∀ c ∈ [exChunkA, exChunkB], chunk_span_ok c := by
    intro c hc
    rcases List.mem_cons.mp hc with rfl | hc2
    · norm_num [chunk_span_ok, exChunkA]
    · rcases List.mem_cons.mp hc2 with rfl | hc3
      · norm_num [chunk_span_ok, exChunkB]
      · cases hc3
  have hfs : List.Pairwise (· ≤ ·) (firstStarts [exChunkA, exChunkB]) := by
    norm_num [firstStarts, contributingChunks, exChunkA, exChunkB]
  exact ⟨hv, hsp, hfs, C7_output_invariant [exChunkA, exChunkB] hv hsp hfs⟩

/-- Claim C3 counterexample: on the two chunks of the spec example the merged
start times are not the `[0, 0.2, 0.5, 0.9, 1.2]` the claim requires, because
the second chunk is re-based with the first chunk's baseline, not its own. -/
theorem C3_merge_example_cex :
    (merge_phoneme_data [exChunkA, exChunkB]).start_times_seconds
      ≠ [0, 0.2, 0.5, 0.9, 1.2] := by
  simp [merge_phoneme_data, merge_phoneme_go, exChunkA, exChunkB]
  norm_num

/-- Claim C3 (amended): on the spec example the merged start times are
`[0, 0.2, 0.5, 10.9, 11.2]`: chunk B keeps its absolute distance from chunk
A's baseline, shifted by the accumulated duration sum of 0.9. -/
theorem C3_merge_example :
    (merge_phoneme_data [exChunkA, exChunkB]).start_times_seconds
      = [0, 0.2, 0.5, 10.9, 11.2] := by
  simp [merge_phoneme_data, merge_phoneme_go, exChunkA, exChunkB]
  norm_num

/-! ## Text segmentation lemmas -/

/-- The last element with a default is a member of any non-empty list. -/
theorem mem_getLastD {α : Type} (d : α) : ∀ (l : List α), l ≠ [] → l.getLastD d ∈ l := by
  intro l
  induction l with
  | nil => intro h; exact absurd rfl h
  | cons a l ih =>
    intro _
    cases l with
    | nil => simp
    | cons b l => exact List.mem_cons_of_mem a (ih (by simp))

/-- Every window produced by the character splitter is within the limit and
non-empty, for a positive limit and enough fuel. -/
theorem splitByCharactersF_spec : ∀ (fuel : Nat) (l : List Char) (m : Nat),
    1 ≤ m → l.length ≤ fuel →
    ∀ c ∈ splitByCharactersF fuel l m, c.length ≤ m ∧ c ≠ [] := by
  intro fuel
  induction fuel with
  | zero =>
    intro l m hm hl c hc
    have hnil : l = [] := List.eq_nil_of_length_eq_zero (Nat.le_zero.mp hl)
    subst hnil
    simp [splitByCharactersF] at hc
  | succ n ih =>
    intro l m hm hl c hc
    cases l with
    | nil => simp [splitByCharactersF] at hc
    | cons x xs =>
      simp only [splitByCharactersF, List.mem_cons] at hc
      rcases hc with rfl | hc
      · refine ⟨by simp, ?_⟩
        cases m with
        | zero => omega
        | succ k => simp
      · refine ih ((x :: xs).drop m) m hm ?_ c hc
        rw [List.length_drop]
        simp only [List.length_cons] at hl ⊢
        omega

/-- The character splitter reassembles to its input for every fuel value. -/
theorem splitByCharactersF_flatten : ∀ (fuel : Nat) (l : List Char) (m : Nat),
    (splitByCharactersF fuel l m).flatten = l := by
  intro fuel
  induction fuel with
  | zero => intro l m; cases l <;> simp [splitByCharactersF]
  | succ n ih =>
    intro l m
    cases l with
    | nil => simp [splitByCharactersF]
    | cons x xs => simp [splitByCharactersF, ih]

/-- Every chunk produced by the word-accumulation loop is within the limit
and non-empty, given the loop invariant for the accumulated state. -/
theorem splitByWordsGo_spec (m : Nat) (hm : 1 ≤ m) :
    ∀ (ws chunks : List (List Char)) (current : List Char),
    (∀ c ∈ chunks, c.length ≤ m ∧ c ≠ []) → current.length ≤ m →
    ∀ c ∈ splitByWordsGo m ws chunks current, c.length ≤ m ∧ c ≠ [] := by
  intro ws
  induction ws with
  | nil =>
    intro chunks current hch hcur c hc
    by_cases h : current = []
    · rw [splitByWordsGo, if_pos h] at hc
      exact hch c hc
    · rw [splitByWordsGo, if_neg h] at hc
      rcases List.mem_append.mp hc with hc | hc
      · exact hch c hc
      · have : c = current := by simpa using hc
        exact this ▸ ⟨hcur, h⟩
  | cons w ws ih =>
    intro chunks current hch hcur c hc
    have hchunks2 : ∀ d ∈ (if current = [] then chunks else chunks ++ [current]),
        d.length ≤ m ∧ d ≠ [] := by
      intro d hd
      by_cases h : current = []
      · rw [if_pos h] at hd; exact hch d hd
      · rw [if_neg h] at hd
        rcases List.mem_append.mp hd with hd | hd
        · exact hch d hd
        · have : d = current := by simpa using hd
          exact this ▸ ⟨hcur, h⟩
    simp only [splitByWordsGo] at hc
    by_cases h1 : (if current = [] then w
        else pyStrip (current ++ ' ' :: w)).length ≤ m
    · rw [if_pos h1] at hc
      exact ih chunks _ hch h1 c hc
    · rw [if_neg h1] at hc
      by_cases h2 : m < w.length
      · rw [if_pos h2] at hc
        have hwcs := splitByCharactersF_spec w.length w m hm le_rfl
        refine ih _ _ ?_ ?_ c hc
        · intro d hd
          rcases List.mem_append.mp hd with hd | hd
          · exact hchunks2 d hd
          · exact hwcs d (List.dropLast_subset _ hd)
        · by_cases hW : split_by_characters w m = []
          · simp [hW]
          · exact (hwcs _ (mem_getLastD [] _ hW)).1
      · rw [if_neg h2] at hc
        exact ih _ w hchunks2 (by omega) c hc

/-- Every chunk produced by _ensure_chunk_within_limit is within the limit,
and empty only when the input is empty. -/
theorem ensure_chunk_spec (chunk : List Char) (m : Nat) (hm : 1 ≤ m) :
    ∀ c ∈ ensure_chunk_within_limit chunk m,
      c.length ≤ m ∧ (c = [] → chunk = []) := by
  unfold ensure_chunk_within_limit
  split_ifs with h1 h2
  · intro c hc
    have : c = chunk := by simpa using hc
    subst this
    exact ⟨h1, fun h => h⟩
  · intro c hc
    simp only [split_by_words] at hc
    split_ifs at hc with h3
    · have := splitByCharactersF_spec chunk.length chunk m hm le_rfl c hc
      exact ⟨this.1, fun h => absurd h this.2⟩
    · have := splitByWordsGo_spec m hm (pySplitWords chunk) [] []
        (by simp) (by simp) c hc
      exact ⟨this.1, fun h => absurd h this.2⟩
  · intro c hc
    have := splitByCharactersF_spec chunk.length chunk m hm le_rfl c hc
    exact ⟨this.1, fun h => absurd h this.2⟩

/-- Claim C2 (confirmed): for a limit of at least 1, every chunk returned by
chunk_text is at most the limit long, for every input string, including the
word-boundary and fixed-window character fallbacks. -/
theorem C2_chunk_length_le (text : List Char) (m : Nat) (hm : 1 ≤ m) :
    ∀ c ∈ chunk_text text m, c.length ≤ m := by
  unfold chunk_text
  split_ifs with h
  · intro c hc
    have : c = text := by simpa using hc
    exact this ▸ h
  · intro c hc
    rw [List.mem_flatMap] at hc
    obtain ⟨d, _, hcd⟩ := hc
    by_cases h2 : d.length ≤ m
    · rw [if_pos h2] at hcd
      have : c = d := by simpa using hcd
      exact this ▸ h2
    · rw [if_neg h2] at hcd
      exact (ensure_chunk_spec d m hm c hcd).1

/-- Claim C2 witness: the bound applied to a concrete string that exercises
the sentence, word and character fallbacks with limit 3. -/
theorem C2_chunk_length_le_witness :
    1 ≤ 3 ∧ ∀ c ∈ chunk_text "ab cd. efghij".toList 3, c.length ≤ 3 :=
  ⟨by decide, C2_chunk_length_le "ab cd. efghij".toList 3 (by decide)⟩

/-- The sentence accumulator only ever emits non-empty chunks. -/
theorem accumulateGo_ne_nil (m : Nat) :
    ∀ (ss chunks : List (List Char)) (current : List Char),
    (∀ c ∈ chunks, c ≠ []) → ∀ c ∈ accumulateGo m ss chunks current, c ≠ [] := by
  intro ss
  induction ss with
  | nil =>
    intro chunks current hch c hc
    by_cases h : current = []
    · rw [accumulateGo, if_pos h] at hc
      exact hch c hc
    · rw [accumulateGo, if_neg h] at hc
      rcases List.mem_append.mp hc with hc | hc
      · exact hch c hc
      · have : c = current := by simpa using hc
        exact this ▸ h
  | cons s ss ih =>
    intro chunks current hch c hc
    simp only [accumulateGo] at hc
    split_ifs at hc with h1 h2 h3
    · exact ih chunks current hch c hc
    · exact ih chunks (current ++ s) hch c hc
    · exact ih chunks s hch c hc
    · refine ih (chunks ++ [current]) s ?_ c hc
      intro d hd
      rcases List.mem_append.mp hd with hd | hd
      · exact hch d hd
      · have : d = current := by simpa using hd
        exact this ▸ h3

/-- Claim C10 counterexample: on the empty string with limit 1 the function
returns the singleton list holding the empty chunk, so the claim that no
returned chunk is the empty string fails. -/
theorem C10_total_nonempty_cex : ([] : List Char) ∈ chunk_text [] 1 := by decide

/-- The sentence regex split reassembles to its input for every fuel value. -/
theorem reSplitF_flatten : ∀ (fuel : Nat) (l : List Char),
    (reSplitF fuel l).flatten = l := by
  intro fuel
  induction fuel with
  | zero => intro l; cases l <;> simp [reSplitF]
  | succ n ih =>
    intro l
    cases l with
    | nil => simp [reSplitF]
    | cons c rest =>
      by_cases hp : isSplitPunct c
      · simp only [reSplitF, hp, if_true, List.flatten_cons, List.flatten_nil,
          List.nil_append, ih]
        rw [List.append_assoc, List.takeWhile_append_dropWhile,
          List.takeWhile_append_dropWhile]
      · simp only [reSplitF, hp, if_false, Bool.false_eq_true]
        cases hr : reSplitF n rest with
        | nil =>
          have hrest := ih rest
          rw [hr] at hrest
          simp only [List.flatten_nil] at hrest
          simp [← hrest]
        | cons s ss =>
          have hrest := ih rest
          rw [hr] at hrest
          simp only [List.flatten_cons] at hrest ⊢
          simp [← hrest]

/-- The sentence accumulator reassembles to the chunks already flushed, the
running chunk and the pending fragments. -/
theorem accumulateGo_flatten (m : Nat) :
    ∀ (ss chunks : List (List Char)) (current : List Char),
    (accumulateGo m ss chunks current).flatten =
      chunks.flatten ++ current ++ ss.flatten := by
  intro ss
  induction ss with
  | nil =>
    intro chunks current
    by_cases h : current = []
    · simp [accumulateGo, h]
    · simp [accumulateGo, h]
  | cons s ss ih =>
    intro chunks current
    simp only [accumulateGo]
    split_ifs with h1 h2 h3
    · simp [ih, h1]
    · simp [ih, List.append_assoc]
    · simp [ih, h3, List.append_assoc]
    · simp [ih, List.append_assoc]

/-- Every character of a chunk emitted by the sentence accumulator comes from
the flushed chunks, the running chunk or the pending fragments. -/
theorem accumulateGo_chars (m : Nat) :
    ∀ (ss chunks : List (List Char)) (current : List Char) (c : List Char),
    c ∈ accumulateGo m ss chunks current → ∀ ch ∈ c,
      ch ∈ chunks.flatten ∨ ch ∈ current ∨ ch ∈ ss.flatten := by
  intro ss
  induction ss with
  | nil =>
    intro chunks current c hc ch hch
    by_cases h : current = []
    · rw [accumulateGo, if_pos h] at hc
      exact Or.inl (List.mem_flatten.mpr ⟨c, hc, hch⟩)
    · rw [accumulateGo, if_neg h] at hc
      rcases List.mem_append.mp hc with hc | hc
      · exact Or.inl (List.mem_flatten.mpr ⟨c, hc, hch⟩)
      · have : c = current := by simpa using hc
        exact Or.inr (Or.inl (this ▸ hch))
  | cons s ss ih =>
    intro chunks current c hc ch hch
    simp only [accumulateGo] at hc
    split_ifs at hc with h1 h2 h3
    · rcases ih chunks current c hc ch hch with h | h | h
      · exact Or.inl h
      · exact Or.inr (Or.inl h)
      · exact Or.inr (Or.inr (by simp [h1] at h ⊢; exact h))
    · rcases ih chunks (current ++ s) c hc ch hch with h | h | h
      · exact Or.inl h
      · rcases List.mem_append.mp h with h | h
        · exact Or.inr (Or.inl h)
        · exact Or.inr (Or.inr (by
            rw [List.flatten_cons]; exact List.mem_append.mpr (Or.inl h)))
      · exact Or.inr (Or.inr (by
          rw [List.flatten_cons]; exact List.mem_append.mpr (Or.inr h)))
    · rcases ih chunks s c hc ch hch with h | h | h
      · exact Or.inl h
      · exact Or.inr (Or.inr (by
          rw [List.flatten_cons]; exact List.mem_append.mpr (Or.inl h)))
      · exact Or.inr (Or.inr (by
          rw [List.flatten_cons]; exact List.mem_append.mpr (Or.inr h)))
    · rcases ih (chunks ++ [current]) s c hc ch hch with h | h | h
      · rw [List.flatten_append] at h
        rcases List.mem_append.mp h with h | h
        · exact Or.inl h
        · exact Or.inr (Or.inl (by simpa using h))
      · exact Or.inr (Or.inr (by
          rw [List.flatten_cons]; exact List.mem_append.mpr (Or.inl h)))
      · exact Or.inr (Or.inr (by
          rw [List.flatten_cons]; exact List.mem_append.mpr (Or.inr h)))

/-- Flattening a flatMap whose pieces each reassemble to their input gives
back the input. -/
theorem flatMap_flatten_eq (l : List (List Char)) (f : List Char → List (List Char))
    (h : ∀ c ∈ l, (f c).flatten = c) : (l.flatMap f).flatten = l.flatten := by
  induction l with
  | nil => simp
  | cons c cs ih =>
    rw [List.flatMap_cons, List.flatten_append, List.flatten_cons,
      h c (List.mem_cons_self c cs),
      ih (fun d hd => h d (List.mem_cons_of_mem c hd))]

/-- Claim C1 counterexample: the word-boundary fallback rebuilds chunks from
whitespace-split words, so the space of the string aa-space-bb with limit 2
is dropped and the concatenation of the chunks is aabb, not the input. -/
theorem C1_lossless_cex :
    (chunk_text "aa bb".toList 2).flatten ≠ "aa bb".toList := by decide

/-- Claim C1 (amended): concatenating the chunks of chunk_text reproduces the
input exactly whenever the input fits in one chunk or contains no space
character, so that the whitespace-normalising word-boundary fallback is never
taken; in general interior whitespace can be dropped by that fallback. -/
theorem C1_lossless (text : List Char) (m : Nat) (hm : 1 ≤ m)
    (h : text.length ≤ m ∨ text.contains ' ' = false) :
    (chunk_text text m).flatten = text := by
  unfold chunk_text
  split_ifs with h1
  · simp
  · have hns : text.contains ' ' = false := h.resolve_left h1
    have hsp : ' ' ∉ text := by simpa using hns
    rw [flatMap_flatten_eq]
    · rw [accumulateGo_flatten]
      simp [reSplit, reSplitF_flatten]
    · intro c hc
      by_cases h2 : c.length ≤ m
      · simp [h2]
      · rw [if_neg h2]
        have hcs : ' ' ∉ c := by
          intro hmem
          rcases accumulateGo_chars m (reSplit text) [] [] c hc ' ' hmem
            with h' | h' | h'
          · simp at h'
          · simp at h'
          · rw [show (reSplit text).flatten = text from by
              simp [reSplit, reSplitF_flatten]] at h'
            exact hsp h'
        unfold ensure_chunk_within_limit
        rw [if_neg h2]
        split_ifs with h3
        · exact absurd (by simpa using h3) hcs
        · simp [split_by_characters, splitByCharactersF_flatten]

/-- Claim C1 witness: the amended round trip applied to a space-free string
with punctuation, limit 3. -/
theorem C1_lossless_witness :
    (1 ≤ 3 ∧ "ab.cd.efg".toList.contains ' ' = false) ∧
      (chunk_text "ab.cd.efg".toList 3).flatten = "ab.cd.efg".toList :=
  ⟨by decide, C1_lossless "ab.cd.efg".toList 3 (by decide) (Or.inr (by decide))⟩

/-- Dropping a prefix by a predicate never lengthens a list. -/
theorem length_dropWhile_le (p : Char → Bool) (l : List Char) :
    (l.dropWhile p).length ≤ l.length := by
  conv_rhs => rw [← List.takeWhile_append_dropWhile p l]
  rw [List.length_append]
  omega

/-- Filtering for non-whitespace ignores a dropped whitespace prefix. -/
theorem filter_dropWhile_space (l : List Char) :
    (l.dropWhile isPySpace).filter (fun c => !isPySpace c) =
      l.filter (fun c => !isPySpace c) := by
  induction l with
  | nil => rfl
  | cons c t ih =>
    by_cases h : isPySpace c = true
    · rw [List.dropWhile_cons, if_pos h, ih, List.filter_cons]
      simp [h]
    · rw [List.dropWhile_cons, if_neg h]

/-- Filtering for non-whitespace is unchanged by Python strip. -/
theorem filter_pyStrip (l : List Char) :
    (pyStrip l).filter (fun c => !isPySpace c) =
      l.filter (fun c => !isPySpace c) := by
  unfold pyStrip
  rw [List.filter_reverse, filter_dropWhile_space, List.filter_reverse,
    filter_dropWhile_space, List.reverse_reverse]

/-- The words of the Python whitespace split, concatenated, are exactly the
non-whitespace characters of the input in order. -/
theorem pySplitWordsF_flatten : ∀ (fuel : Nat) (l : List Char),
    l.length ≤ fuel →
    (pySplitWordsF fuel l).flatten = l.filter (fun c => !isPySpace c) := by
  intro fuel
  induction fuel with
  | zero =>
    intro l hl
    have hnil : l = [] := List.eq_nil_of_length_eq_zero (Nat.le_zero.mp hl)
    subst hnil
    rfl
  | succ n ih =>
    intro l hl
    cases l with
    | nil => rfl
    | cons c rest =>
      by_cases h : isPySpace c = true
      · rw [show pySplitWordsF (n + 1) (c :: rest) = pySplitWordsF n rest from by
          simp [pySplitWordsF, h]]
        rw [ih rest (by simp only [List.length_cons] at hl; omega),
          List.filter_cons]
        simp [h]
      · rw [show pySplitWordsF (n + 1) (c :: rest) =
            (c :: rest).takeWhile (fun x => !isPySpace x) ::
              pySplitWordsF n ((c :: rest).dropWhile (fun x => !isPySpace x)) from by
          simp [pySplitWordsF, h]]
        rw [List.flatten_cons]
        have hr : ((c :: rest).dropWhile (fun x => !isPySpace x)).length ≤ n := by
          have h1 : (c :: rest).dropWhile (fun x => !isPySpace x) =
              rest.dropWhile (fun x => !isPySpace x) := by
            rw [List.dropWhile_cons, if_pos (by simp [h])]
          rw [h1]
          have h2 := length_dropWhile_le (fun x => !isPySpace x) rest
          simp only [List.length_cons] at hl
          omega
        rw [ih _ hr]
        conv_rhs => rw [← List.takeWhile_append_dropWhile
          (fun x => !isPySpace x) (c :: rest)]
        rw [List.filter_append]
        congr 1
        refine (List.filter_eq_self.mpr (fun a ha => ?_)).symm
        have := List.mem_takeWhile_imp ha
        simpa using this

/-- Flattening all but the last chunk and appending the last chunk flattens
the whole list. -/
theorem flatten_dropLast_getLastD : ∀ (l : List (List Char)), l ≠ [] →
    ∀ (d : List Char), l.dropLast.flatten ++ l.getLastD d = l.flatten := by
  intro l
  induction l with
  | nil => intro h; exact absurd rfl h
  | cons a t ih =>
    intro _ d
    cases t with
    | nil => simp
    | cons b t2 =>
      rw [show (a :: b :: t2).dropLast = a :: (b :: t2).dropLast from rfl,
        List.flatten_cons, List.getLastD_cons, List.append_assoc,
        ih (by simp) a]
      simp [List.flatten_cons]

/-- The character splitter returns at least one window on non-empty input. -/
theorem split_by_characters_ne_nil (w : List Char) (m : Nat) (hw : w ≠ []) :
    split_by_characters w m ≠ [] := by
  cases w with
  | nil => exact absurd rfl hw
  | cons x xs => simp [split_by_characters, splitByCharactersF]

/-- The word-accumulation loop preserves the non-whitespace characters of the
flushed chunks, the running chunk and the pending words, in order. -/
theorem splitByWordsGo_filter (m : Nat) :
    ∀ (ws chunks : List (List Char)) (current : List Char),
    ((splitByWordsGo m ws chunks current).flatten).filter (fun c => !isPySpace c) =
      (chunks.flatten).filter (fun c => !isPySpace c) ++
        current.filter (fun c => !isPySpace c) ++
        (ws.flatten).filter (fun c => !isPySpace c) := by
  intro ws
  induction ws with
  | nil =>
    intro chunks current
    by_cases h : current = []
    · rw [splitByWordsGo, if_pos h, h]
      simp
    · rw [splitByWordsGo, if_neg h]
      simp [List.flatten_append, List.filter_append]
  | cons w ws ih =>
    intro chunks current
    simp only [splitByWordsGo]
    have hchunks2 : ((if current = [] then chunks
          else chunks ++ [current]).flatten).filter (fun c => !isPySpace c) =
        (chunks.flatten).filter (fun c => !isPySpace c) ++
          current.filter (fun c => !isPySpace c) := by
      by_cases hc : current = []
      · rw [if_pos hc, hc]
        simp
      · rw [if_neg hc]
        simp [List.flatten_append, List.filter_append]
    by_cases h1 : (if current = [] then w
        else pyStrip (current ++ ' ' :: w)).length ≤ m
    · rw [if_pos h1, ih]
      have htest : ((if current = [] then w
            else pyStrip (current ++ ' ' :: w)).filter (fun c => !isPySpace c)) =
          current.filter (fun c => !isPySpace c) ++
            w.filter (fun c => !isPySpace c) := by
        by_cases hc : current = []
        · rw [if_pos hc, hc]
          simp
        · rw [if_neg hc, filter_pyStrip, List.filter_append, List.filter_cons]
          simp [isPySpace]
      rw [htest]
      simp [List.flatten_cons, List.filter_append, List.append_assoc]
    · rw [if_neg h1]
      by_cases h2 : m < w.length
      · rw [if_pos h2, ih]
        have hwne : w ≠ [] := by
          intro hw
          rw [hw] at h2
          simp at h2
        have hkey : ((split_by_characters w m).dropLast.flatten).filter
              (fun c => !isPySpace c) ++
            ((split_by_characters w m).getLastD []).filter (fun c => !isPySpace c) =
            w.filter (fun c => !isPySpace c) := by
          rw [← List.filter_append,
            flatten_dropLast_getLastD _ (split_by_characters_ne_nil w m hwne) []]
          rw [show (split_by_characters w m).flatten = w from
            splitByCharactersF_flatten _ _ _]
        rw [List.flatten_append, List.filter_append, hchunks2]
        rw [List.append_assoc, List.append_assoc, ← List.append_assoc
          (((split_by_characters w m).dropLast.flatten).filter (fun c => !isPySpace c)),
          hkey]
        simp [List.flatten_cons, List.filter_append, List.append_assoc]
      · rw [if_neg h2, ih, hchunks2]
        simp [List.flatten_cons, List.filter_append, List.append_assoc]

/-- _split_by_words preserves the non-whitespace characters in order. -/
theorem split_by_words_filter (c : List Char) (m : Nat) :
    ((split_by_words c m).flatten).filter (fun x => !isPySpace x) =
      c.filter (fun x => !isPySpace x) := by
  simp only [split_by_words]
  split_ifs with h
  · rw [show (split_by_characters c m).flatten = c from
      splitByCharactersF_flatten _ _ _]
  · rw [splitByWordsGo_filter]
    simp only [List.flatten_nil, List.filter_nil, List.nil_append]
    rw [show (pySplitWords c).flatten = c.filter (fun x => !isPySpace x) from
      pySplitWordsF_flatten _ _ le_rfl]
    refine List.filter_eq_self.mpr (fun a ha => ?_)
    have := List.of_mem_filter ha
    simpa using this

/-- _ensure_chunk_within_limit preserves the non-whitespace characters in
order. -/
theorem ensure_chunk_filter (c : List Char) (m : Nat) :
    ((ensure_chunk_within_limit c m).flatten).filter (fun x => !isPySpace x) =
      c.filter (fun x => !isPySpace x) := by
  unfold ensure_chunk_within_limit
  split_ifs with h1 h2
  · simp
  · exact split_by_words_filter c m
  · rw [show (split_by_characters c m).flatten = c from
      splitByCharactersF_flatten _ _ _]

/-- A flatMap whose pieces each preserve the filtered characters preserves
them globally. -/
theorem flatMap_flatten_filter (l : List (List Char)) (f : List Char → List (List Char))
    (h : ∀ c ∈ l, ((f c).flatten).filter (fun x => !isPySpace x) =
      c.filter (fun x => !isPySpace x)) :
    ((l.flatMap f).flatten).filter (fun x => !isPySpace x) =
      (l.flatten).filter (fun x => !isPySpace x) := by
  induction l with
  | nil => rfl
  | cons c cs ih =>
    rw [List.flatMap_cons, List.flatten_append, List.filter_append,
      h c (List.mem_cons_self c cs), List.flatten_cons, List.filter_append,
      ih (fun d hd => h d (List.mem_cons_of_mem c hd))]

/-- Claim C10 (amended): chunk_text is total for every string and limit of at
least 1; the chunks appear in input order: their concatenation carries every
non-whitespace character of the input in the original order (and is the
exact input except for the word-fallback whitespace normalisation recorded
in C1); and no returned chunk is the empty string when the input is
non-empty, the empty input returning the single empty chunk being the one
exception. -/
theorem C10_total_nonempty (text : List Char) (m : Nat) (hm : 1 ≤ m) :
    ((chunk_text text m).flatten).filter (fun c => !isPySpace c) =
        text.filter (fun c => !isPySpace c) ∧
      (text ≠ [] → ∀ c ∈ chunk_text text m, c ≠ []) := by
  constructor
  · unfold chunk_text
    split_ifs with h
    · simp
    · rw [flatMap_flatten_filter]
      · rw [accumulateGo_flatten]
        simp [reSplit, reSplitF_flatten]
      · intro c hc
        by_cases h2 : c.length ≤ m
        · rw [if_pos h2]
          simp
        · rw [if_neg h2]
          exact ensure_chunk_filter c m
  · intro ht
    unfold chunk_text
    split_ifs with h
    · intro c hc
      have : c = text := by simpa using hc
      exact this ▸ ht
    · intro c hc
      rw [List.mem_flatMap] at hc
      obtain ⟨d, hd, hcd⟩ := hc
      have hdne : d ≠ [] := accumulateGo_ne_nil m (reSplit text) [] [] (by simp) d hd
      by_cases h2 : d.length ≤ m
      · rw [if_pos h2] at hcd
        have : c = d := by simpa using hcd
        exact this ▸ hdne
      · rw [if_neg h2] at hcd
        intro hc0
        exact hdne ((ensure_chunk_spec d m hm c hcd).2 hc0)

/-- Claim C10 witness: the amended theorem applied to a concrete string with
punctuation and spaces, limit 2. -/
theorem C10_total_nonempty_witness :
    1 ≤ 2 ∧
      (((chunk_text "a. b! c".toList 2).flatten).filter (fun c => !isPySpace c) =
          "a. b! c".toList.filter (fun c => !isPySpace c) ∧
        ("a. b! c".toList ≠ [] → ∀ c ∈ chunk_text "a. b! c".toList 2, c ≠ [])) :=
  ⟨by decide, C10_total_nonempty "a. b! c".toList 2 (by decide)⟩

/-! ## WAV merge lemmas -/

/-- The length of a Python slice. -/
theorem pySlice_length (l : List Nat) (a b : Nat) :
    (pySlice l a b).length = min (b - a) (l.length - a) := by
  simp [pySlice]

/-- A 2-byte slice starting in bounds, written with default reads. -/
theorem pySlice_pair (l : List Nat) (i : Nat) (h : i + 2 ≤ l.length) :
    pySlice l i (i + 2) = [l.getD i 0, l.getD (i + 1) 0] := by
  have h1 : i < l.length := by omega
  have h2 : i + 1 < l.length := by omega
  unfold pySlice
  rw [List.drop_eq_getElem_cons h1, List.drop_eq_getElem_cons h2,
    show i + 2 - i = 2 from by omega]
  simp only [List.take_succ_cons, List.take_zero, List.getD_eq_getElem?_getD,
    List.getElem?_eq_getElem h1, List.getElem?_eq_getElem h2, Option.getD_some]

/-- A 4-byte slice starting in bounds, written with default reads. -/
theorem pySlice_quad (l : List Nat) (i : Nat) (h : i + 4 ≤ l.length) :
    pySlice l i (i + 4) =
      [l.getD i 0, l.getD (i + 1) 0, l.getD (i + 2) 0, l.getD (i + 3) 0] := by
  have h1 : i < l.length := by omega
  have h2 : i + 1 < l.length := by omega
  have h3 : i + 2 < l.length := by omega
  have h4 : i + 3 < l.length := by omega
  unfold pySlice
  rw [List.drop_eq_getElem_cons h1, List.drop_eq_getElem_cons h2,
    show i + 1 + 1 = i + 2 from rfl, List.drop_eq_getElem_cons h3,
    show i + 2 + 1 = i + 3 from rfl, List.drop_eq_getElem_cons h4,
    show i + 4 - i = 4 from by omega]
  simp only [List.take_succ_cons, List.take_zero, List.getD_eq_getElem?_getD,
    List.getElem?_eq_getElem h1, List.getElem?_eq_getElem h2,
    List.getElem?_eq_getElem h3, List.getElem?_eq_getElem h4, Option.getD_some]

/-- unpack16 fails exactly on buffers that are not 2 bytes. -/
theorem unpack16_error_of_length (bs : List Nat) (h : bs.length ≠ 2) :
    ∃ e, unpack16 bs = .error e := by
  rcases bs with _ | ⟨a, _ | ⟨b, _ | c⟩⟩ <;> first
    | exact ⟨_, rfl⟩
    | exact absurd rfl h

/-- unpack32 fails exactly on buffers that are not 4 bytes. -/
theorem unpack32_error_of_length (bs : List Nat) (h : bs.length ≠ 4) :
    ∃ e, unpack32 bs = .error e := by
  rcases bs with _ | ⟨a, _ | ⟨b, _ | ⟨c, _ | ⟨d, _ | e⟩⟩⟩⟩ <;> first
    | exact ⟨_, rfl⟩
    | exact absurd rfl h

/-- The header parse succeeds on any buffer of at least 36 bytes and returns
the five little-endian fields at their fixed offsets. -/
theorem parseWavParams_ok (l : List Nat) (h : 36 ≤ l.length) :
    parseWavParams l = .ok (u16At l 22, u32At l 24, u32At l 28, u16At l 32, u16At l 34) := by
  unfold parseWavParams
  rw [show (24 : Nat) = 22 + 2 from rfl, pySlice_pair l 22 (by omega)]
  rw [show (28 : Nat) = 24 + 4 from rfl, pySlice_quad l 24 (by omega)]
  rw [show (32 : Nat) = 28 + 4 from rfl, pySlice_quad l 28 (by omega)]
  rw [show (34 : Nat) = 32 + 2 from rfl, pySlice_pair l 32 (by omega)]
  rw [show (36 : Nat) = 34 + 2 from rfl, pySlice_pair l 34 (by omega)]
  simp [unpack16, unpack32, u16At, u32At]

/-- The header parse fails on any buffer shorter than 36 bytes, which models
the struct.error raised by the corresponding Python unpack. -/
theorem parseWavParams_error (l : List Nat) (h : l.length < 36) :
    ∃ e, parseWavParams l = .error e := by
  by_cases h24 : l.length < 24
  · obtain ⟨e, he⟩ := unpack16_error_of_length
      (pySlice l 22 24) (by rw [pySlice_length]; omega)
    exact ⟨e, by unfold parseWavParams; rw [he]⟩
  · rw [not_lt] at h24
    have h22 : pySlice l 22 24 = [l.getD 22 0, l.getD 23 0] := by
      rw [show (24 : Nat) = 22 + 2 from rfl]
      exact pySlice_pair l 22 (by omega)
    by_cases h28 : l.length < 28
    · obtain ⟨e, he⟩ := unpack32_error_of_length
        (pySlice l 24 28) (by rw [pySlice_length]; omega)
      exact ⟨e, by unfold parseWavParams; rw [h22, he]; rfl⟩
    · rw [not_lt] at h28
      have h24s : pySlice l 24 28 =
          [l.getD 24 0, l.getD 25 0, l.getD 26 0, l.getD 27 0] := by
        rw [show (28 : Nat) = 24 + 4 from rfl]
        exact pySlice_quad l 24 (by omega)
      by_cases h32 : l.length < 32
      · obtain ⟨e, he⟩ := unpack32_error_of_length
          (pySlice l 28 32) (by rw [pySlice_length]; omega)
        exact ⟨e, by unfold parseWavParams; rw [h22, h24s, he]; rfl⟩
      · rw [not_lt] at h32
        have h28s : pySlice l 28 32 =
            [l.getD 28 0, l.getD 29 0, l.getD 30 0, l.getD 31 0] := by
          rw [show (32 : Nat) = 28 + 4 from rfl]
          exact pySlice_quad l 28 (by omega)
        by_cases h34 : l.length < 34
        · obtain ⟨e, he⟩ := unpack16_error_of_length
            (pySlice l 32 34) (by rw [pySlice_length]; omega)
          exact ⟨e, by unfold parseWavParams; rw [h22, h24s, h28s, he]; rfl⟩
        · rw [not_lt] at h34
          have h32s : pySlice l 32 34 = [l.getD 32 0, l.getD 33 0] := by
            rw [show (34 : Nat) = 32 + 2 from rfl]
            exact pySlice_pair l 32 (by omega)
          obtain ⟨e, he⟩ := unpack16_error_of_length
            (pySlice l 34 36) (by rw [pySlice_length]; omega)
          exact ⟨e, by unfold parseWavParams; rw [h22, h24s, h28s, h32s, he]; rfl⟩

/-- Claim C5 counterexample: a RIFF blob with a full 44-byte header but no
data subchunk anywhere is not rejected: the merge returns successfully (with
an empty payload contribution), not a parsing error. -/
theorem C5_malformed_error_cex :
    noDataWav.take 4 = riffMagic ∧ findDataPayload noDataWav = none ∧
      exceptIsOk (merge_wav_binary [noDataWav]) = true := by decide

/-- Claim C5 (amended): merge_wav_binary raises a parsing error precisely for
a first blob shorter than 36 bytes (truncated header, struct.error); a RIFF
blob whose header is complete but has no reachable data subchunk is silently
skipped and the merge still returns a blob. -/
theorem C5_truncated_error (c0 : List Nat) (cs : List (List Nat))
    (h : c0.length < 36) : exceptIsOk (merge_wav_binary (c0 :: cs)) = false := by
  obtain ⟨e, he⟩ := parseWavParams_error (c0.take 44)
    (by rw [List.length_take]; omega)
  simp [merge_wav_binary, he, exceptIsOk]

/-- Claim C5 witness: the amended theorem applied to a 3-byte truncated blob. -/
theorem C5_truncated_error_witness :
    [82, 73, 70].length < 36 ∧
      exceptIsOk (merge_wav_binary [[82, 73, 70]]) = false :=
  ⟨by decide, C5_truncated_error [82, 73, 70] [] (by decide)⟩

/-- Reading inside a take is reading the underlying list. -/
theorem getD_take (l : List Nat) (n i : Nat) (h : i < n) :
    (l.take n).getD i 0 = l.getD i 0 := by
  rw [List.getD_eq_getElem?_getD, List.getD_eq_getElem?_getD,
    List.getElem?_take, if_pos h]

/-- u16At reads inside a 44-byte take as on the underlying list. -/
theorem u16At_take44 (l : List Nat) (i : Nat) (h : i + 1 < 44) :
    u16At (l.take 44) i = u16At l i := by
  unfold u16At
  rw [getD_take l 44 i (by omega), getD_take l 44 (i + 1) (by omega)]

/-- u32At reads inside a 44-byte take as on the underlying list. -/
theorem u32At_take44 (l : List Nat) (i : Nat) (h : i + 3 < 44) :
    u32At (l.take 44) i = u32At l i := by
  unfold u32At
  rw [getD_take l 44 i (by omega), getD_take l 44 (i + 1) (by omega),
    getD_take l 44 (i + 2) (by omega), getD_take l 44 (i + 3) (by omega)]

/-- The header parse of merge_wav_binary on the 44-byte prefix of a blob of
at least 44 bytes. -/
theorem parseWavParams_take44 (l : List Nat) (h : 44 ≤ l.length) :
    parseWavParams (l.take 44) =
      .ok (u16At l 22, u32At l 24, u32At l 28, u16At l 32, u16At l 34) := by
  rw [parseWavParams_ok (l.take 44) (by rw [List.length_take]; omega),
    u16At_take44 l 22 (by omega), u32At_take44 l 24 (by omega),
    u32At_take44 l 28 (by omega), u16At_take44 l 32 (by omega),
    u16At_take44 l 34 (by omega)]

/-- Default reads of a byte list are bytes. -/
theorem getD_lt_256 (l : List Nat) (h : ∀ x ∈ l, x < 256) (i : Nat) :
    l.getD i 0 < 256 := by
  rw [List.getD_eq_getElem?_getD]
  cases hx : l[i]? with
  | none => simp
  | some v => simpa using h v (List.getElem?_mem hx)

/-- In-range packs succeed with the total little-endian encoding. -/
theorem pack32_ok (n : Nat) (h : n < 4294967296) : pack32 n = .ok (pack32F n) := by
  simp [pack32, pack32F, h]

/-- In-range 16-bit packs succeed with the total little-endian encoding. -/
theorem pack16_ok (n : Nat) (h : n < 65536) : pack16 n = .ok (pack16F n) := by
  simp [pack16, pack16F, h]

set_option maxRecDepth 100000 in
/-- Claim C4 (confirmed): merging no blobs gives the empty byte string; on
well-formed WAV blobs (RIFF magic, full 44-byte header, reachable data
subchunk, byte values) whose total payload keeps the RIFF size field in
32-bit range, the merge returns the fresh canonical header built from the
first blob's format parameters and the total payload length, followed by the
extracted payloads concatenated in input order; and two minimal 16 kHz mono
16-bit WAVs of 100 payload bytes each merge into a blob whose data size field
is 200 and whose RIFF size field is 236. -/
theorem C4_merge_wav :
    merge_wav_binary [] = Except.ok [] ∧
    (∀ (c0 : List Nat) (cs : List (List Nat)),
      (∀ c ∈ c0 :: cs, wellFormedWav c) →
      ((c0 :: cs).map (fun c => (findDataPayload c).getD [])).flatten.length + 36
          < 4294967296 →
      merge_wav_binary (c0 :: cs) = Except.ok
        (mkWavHeader (u16At c0 22) (u32At c0 24) (u32At c0 28) (u16At c0 32)
          (u16At c0 34)
          ((c0 :: cs).map (fun c => (findDataPayload c).getD [])).flatten.length ++
          ((c0 :: cs).map (fun c => (findDataPayload c).getD [])).flatten)) ∧
    (merge_wav_binary [minimalWav, minimalWav] = Except.ok
        (mkWavHeader 1 16000 32000 2 16 200 ++
          (List.replicate 100 7 ++ List.replicate 100 7)) ∧
      pySlice (mkWavHeader 1 16000 32000 2 16 200 ++
        (List.replicate 100 7 ++ List.replicate 100 7)) 40 44 = pack32F 200 ∧
      pySlice (mkWavHeader 1 16000 32000 2 16 200 ++
        (List.replicate 100 7 ++ List.replicate 100 7)) 4 8 = pack32F 236) := by
  refine ⟨rfl, ?_, by decide, by decide, by decide⟩
  intro c0 cs hwf hsize
  obtain ⟨hbytes0, hriff0, hlen0, _⟩ := hwf c0 (List.mem_cons_self _ _)
  have hparse := parseWavParams_take44 c0 hlen0
  have hmap : (c0 :: cs).map extractChunkPayload =
      (c0 :: cs).map (fun c => (findDataPayload c).getD []) := by
    apply List.map_congr_left
    intro c hc
    obtain ⟨_, hr, hl, _⟩ := hwf c hc
    unfold extractChunkPayload
    rw [if_pos ⟨hl, hr⟩]
  have hch : u16At c0 22 < 65536 := by
    have b1 := getD_lt_256 c0 hbytes0 22
    have b2 := getD_lt_256 c0 hbytes0 (22 + 1)
    unfold u16At
    omega
  have hba : u16At c0 32 < 65536 := by
    have b1 := getD_lt_256 c0 hbytes0 32
    have b2 := getD_lt_256 c0 hbytes0 (32 + 1)
    unfold u16At
    omega
  have hbps : u16At c0 34 < 65536 := by
    have b1 := getD_lt_256 c0 hbytes0 34
    have b2 := getD_lt_256 c0 hbytes0 (34 + 1)
    unfold u16At
    omega
  have hsr : u32At c0 24 < 4294967296 := by
    have b1 := getD_lt_256 c0 hbytes0 24
    have b2 := getD_lt_256 c0 hbytes0 (24 + 1)
    have b3 := getD_lt_256 c0 hbytes0 (24 + 2)
    have b4 := getD_lt_256 c0 hbytes0 (24 + 3)
    unfold u32At
    omega
  have hbr : u32At c0 28 < 4294967296 := by
    have b1 := getD_lt_256 c0 hbytes0 28
    have b2 := getD_lt_256 c0 hbytes0 (28 + 1)
    have b3 := getD_lt_256 c0 hbytes0 (28 + 2)
    have b4 := getD_lt_256 c0 hbytes0 (28 + 3)
    unfold u32At
    omega
  simp only [merge_wav_binary, hmap, hparse]
  rw [pack32_ok _ hsize, pack16_ok _ hch, pack32_ok _ hsr, pack32_ok _ hbr,
    pack16_ok _ hba, pack16_ok _ hbps, pack32_ok _ (by omega)]
  simp [mkWavHeader, List.append_assoc]

set_option maxRecDepth 100000 in
/-- Claim C4 witness: the general part of the theorem applied to the single
minimal WAV blob. -/
theorem C4_merge_wav_witness :
    (∀ c ∈ [minimalWav], wellFormedWav c) ∧
    (([minimalWav].map (fun c => (findDataPayload c).getD [])).flatten.length + 36
        < 4294967296) ∧
    merge_wav_binary [minimalWav] = Except.ok
      (mkWavHeader (u16At minimalWav 22) (u32At minimalWav 24)
        (u32At minimalWav 28) (u16At minimalWav 32) (u16At minimalWav 34)
        ([minimalWav].map (fun c => (findDataPayload c).getD [])).flatten.length ++
        ([minimalWav].map (fun c => (findDataPayload c).getD [])).flatten) :=
  ⟨by decide, by decide, C4_merge_wav.2.1 minimalWav [] (by decide) (by decide)⟩

/-! ## Response extraction theorems -/

/-- Claim C6 counterexample: the sync extractor performs no caching, so a
second call on a stream-backed result re-reads the exhausted stream and
returns the empty buffer instead of the first buffer. -/
theorem C6_idempotent_cex :
    (extract_audio_from_response
        ((extract_audio_from_response (SyncAudioSource.stream [1])).2)).1
      ≠ (extract_audio_from_response (SyncAudioSource.stream [1])).1 := by decide

/-- Claim C6 (amended): the async extractor is idempotent on responses that
are already cached or expose an async byte iterator: the first call stores
the materialized buffer in the _content cache and a second call returns the
same buffer without re-consuming the iterator.  The sync extractor caches
nothing, so its idempotence fails on plain streams. -/
theorem C6_async_idempotent (r : AsyncAudioSource)
    (h : r.content.isSome = true ∨ r.aiterChunks.isSome = true) :
    (extract_audio_from_response_async r).2.content =
        some (extract_audio_from_response_async r).1 ∧
      (extract_audio_from_response_async
          (extract_audio_from_response_async r).2).1 =
        (extract_audio_from_response_async r).1 := by
  obtain ⟨content, aiter, readable, raw⟩ := r
  cases content with
  | some c => simp [extract_audio_from_response_async]
  | none =>
    cases aiter with
    | some chunks => simp [extract_audio_from_response_async]
    | none => simp at h

/-- Claim C6 witness: the amended theorem applied to an uncached response
whose result exposes an async iterator with two pending chunks. -/
theorem C6_async_idempotent_witness :
    ((AsyncAudioSource.mk none (some [[1, 2], [3]]) none []).content.isSome = true ∨
      (AsyncAudioSource.mk none (some [[1, 2], [3]]) none []).aiterChunks.isSome = true) ∧
    ((extract_audio_from_response_async
        (AsyncAudioSource.mk none (some [[1, 2], [3]]) none [])).2.content =
      some (extract_audio_from_response_async
        (AsyncAudioSource.mk none (some [[1, 2], [3]]) none [])).1 ∧
    (extract_audio_from_response_async
        (extract_audio_from_response_async
          (AsyncAudioSource.mk none (some [[1, 2], [3]]) none [])).2).1 =
      (extract_audio_from_response_async
        (AsyncAudioSource.mk none (some [[1, 2], [3]]) none [])).1) :=
  ⟨by decide,
    C6_async_idempotent (AsyncAudioSource.mk none (some [[1, 2], [3]]) none [])
      (by decide)⟩

/-! ## NDJSON extraction theorems -/

/-- One line step of the NDJSON loop appends exactly that line's audio
contribution. -/
theorem ndjsonLineStep_eq (loads : List Char → PyJsonResult)
    (b64decode : List Char → Option (List Nat)) (acc : List Nat)
    (line : List Char) :
    ndjsonLineStep loads b64decode acc line =
      acc ++ lineAudio loads b64decode line := by
  unfold ndjsonLineStep lineAudio
  by_cases hb : pyStrip line ≠ []
  · rw [if_pos hb, if_pos hb]
    cases loads line with
    | audioKey v =>
      cases v with
      | jstr s =>
        cases hbs : b64decode s with
        | some bs => simp [hbs]
        | none => simp [hbs]
      | other => simp
    | parseError => simp
    | noKey => simp
    | notContainer => simp
  · rw [if_neg hb, if_neg hb, List.append_nil]

/-- Folding the NDJSON line loop concatenates the per-line contributions. -/
theorem foldl_ndjsonLineStep (loads : List Char → PyJsonResult)
    (b64decode : List Char → Option (List Nat)) :
    ∀ (lines : List (List Char)) (acc : List Nat),
    lines.foldl (ndjsonLineStep loads b64decode) acc =
      acc ++ (lines.map (lineAudio loads b64decode)).flatten := by
  intro lines
  induction lines with
  | nil => intro acc; simp
  | cons l ls ih =>
    intro acc
    rw [List.foldl_cons, ndjsonLineStep_eq, ih, List.map_cons,
      List.flatten_cons, List.append_assoc]

/-- Claim C9 counterexample: on the single-line input the digit 5 the whole
function raises instead of returning: json.loads succeeds with the integer 5
and the membership test audio_base64-in-5 raises TypeError, which the fast
path does not catch.  (CPython: json.loads("5") returns int 5 and the in
operator on an int raises TypeError.) -/
theorem C9_ndjson_total_cex :
    exceptIsOk (extract_audio_from_ndjson pyLoads pyB64decode "5".toList)
      = false := by decide

/-- Claim C9 (amended): whenever the single-object fast path falls through
(the whole input fails to parse as JSON, or parses to a container without
the audio_base64 key), the extractor returns normally with the concatenated
decoded payloads of the well-formed lines, each malformed line skipped
individually; but when the fast path reaches a non-container value or an
undecodable audio_base64, the error is raised, not caught. -/
theorem C9_ndjson_lines (loads : List Char → PyJsonResult)
    (b64decode : List Char → Option (List Nat)) (s : List Char)
    (h : loads s = .parseError ∨ loads s = .noKey) :
    extract_audio_from_ndjson loads b64decode s =
      .ok ((splitLines (pyStrip s)).map (lineAudio loads b64decode)).flatten := by
  unfold extract_audio_from_ndjson
  rcases h with h | h <;>
    rw [h] <;> rw [foldl_ndjsonLineStep] <;> simp

/-- Claim C9 witness: the amended theorem applied to the three-line example
with a malformed middle line; the decoded payloads of the first and last
lines are concatenated. -/
theorem C9_ndjson_lines_witness :
    pyLoads ndjsonExample = .parseError ∧
    extract_audio_from_ndjson pyLoads pyB64decode ndjsonExample =
      .ok ((splitLines (pyStrip ndjsonExample)).map
        (lineAudio pyLoads pyB64decode)).flatten ∧
    ((splitLines (pyStrip ndjsonExample)).map
        (lineAudio pyLoads pyB64decode)).flatten = [65, 66, 67, 69, 70, 71] :=
  ⟨by decide,
    C9_ndjson_lines pyLoads pyB64decode ndjsonExample (Or.inl (by decide)),
    by decide⟩

